import Mathlib

/-
Verification of the RDM content-provider core of repo2docker:
the URL parser (contentproviders/rdm/url.py), the directory hasher
(contentproviders/rdm/hash.py), the path-mapping model
(contentproviders/rdm/paths.py), the provisioner script generator
(contentproviders/rdm/provisioner.py) and the fetch/detect orchestrator
(contentproviders/rdm/__init__.py), shallowly embedded in Lean.
Python strings are modelled as Lean strings (lists of characters);
bytes are modelled as natural numbers below 256.
-/

set_option maxRecDepth 100000

namespace RdmCore

/-! ### Python string primitives -/

/-- Python `s.lstrip("/")`: drop leading slash characters. -/
def pyLstripSlash (s : String) : String :=
  ⟨s.data.dropWhile (fun c => c == '/')⟩

/-- Drop trailing slash characters from a character list. -/
def rstripSlashList (l : List Char) : List Char :=
  (l.reverse.dropWhile (fun c => c == '/')).reverse

/-- Python `s.rstrip("/")`: drop trailing slash characters. -/
def pyRstripSlash (s : String) : String :=
  ⟨rstripSlashList s.data⟩

/-- Character-list form of Python `s.strip("/")`. -/
def stripSlashList (l : List Char) : List Char :=
  rstripSlashList (l.dropWhile (fun c => c == '/'))

/-- Python `s.strip("/")`: drop slash characters at both ends. -/
def pyStripSlash (s : String) : String :=
  ⟨stripSlashList s.data⟩

/-- Python `s.startswith(p)`. -/
def pyStartsWith (s p : String) : Bool :=
  p.data.isPrefixOf s.data

/-- Python `s.endswith(p)`. -/
def pyEndsWith (s p : String) : Bool :=
  p.data.isSuffixOf s.data

/-- Python `"/" in s`. -/
def containsSlash (s : String) : Bool :=
  s.data.any (fun c => c == '/')

/-- Python `s.replace("$default_storage_path", rep)`: replace every
occurrence of the placeholder, scanning left to right. -/
def replaceDSP (rep : String) : List Char → List Char
  | '$' :: 'd' :: 'e' :: 'f' :: 'a' :: 'u' :: 'l' :: 't' :: '_' :: 's' :: 't' :: 'o' ::
    'r' :: 'a' :: 'g' :: 'e' :: '_' :: 'p' :: 'a' :: 't' :: 'h' :: rest =>
      rep.data ++ replaceDSP rep rest
  | a :: rest => a :: replaceDSP rep rest
  | [] => []

/-! ### URL parsing (contentproviders/rdm/url.py) -/

/-- Scan for the first occurrence of the marker `://` and return what
follows it, if present. -/
def afterSchemeMarker : List Char → Option (List Char)
  | ':' :: '/' :: '/' :: rest => some rest
  | _ :: rest => afterSchemeMarker rest
  | [] => none

/-- Model of the `path` component produced by `urllib.parse.urlparse` for the
URLs this provider receives: the fragment (after `#`) and query (after `?`)
are removed; when a `scheme://netloc` authority is present the path starts at
the first slash after the authority, and otherwise the whole remainder is the
path. -/
def urlparsePath (url : String) : String :=
  let l := (url.data.takeWhile (fun c => !(c == '#'))).takeWhile (fun c => !(c == '?'))
  match afterSchemeMarker l with
  | some rest => ⟨rest.dropWhile (fun c => !(c == '/'))⟩
  | none => ⟨l⟩

/-- `RDMURL.project_id` applied to the URL's path component:
`path.lstrip("/").split("/")[0]`. -/
def projectIdOfPath (path : String) : String :=
  ⟨(path.data.dropWhile (fun c => c == '/')).takeWhile (fun c => !(c == '/'))⟩

/-- `RDMURL.project_path` applied to the URL's path component: strip the
leading slashes, return `""` when no slash remains, otherwise split off the
first segment and strip the markers `files/` then `dir/` in order. -/
def projectPathOfPath (path : String) : String :=
  let p := path.data.dropWhile (fun c => c == '/')
  if !(p.any (fun c => c == '/')) then ""
  else
    let rest := (p.dropWhile (fun c => !(c == '/'))).drop 1
    if ("files/".data).isPrefixOf rest then
      let rest2 := rest.drop 6
      if ("dir/".data).isPrefixOf rest2 then ⟨rest2.drop 4⟩ else ⟨rest2⟩
    else ⟨rest⟩

/-- `RDMURL(url).project_id`. -/
def rdmProjectId (url : String) : String :=
  projectIdOfPath (urlparsePath url)

/-- `RDMURL(url).project_path`. -/
def rdmProjectPath (url : String) : String :=
  projectPathOfPath (urlparsePath url)

/-! ### Path-mapping model (contentproviders/rdm/paths.py) -/

/-- A raw mapping dictionary: each of the three recognized keys may be
absent. -/
structure RawMapping where
  type : Option String
  source : Option String
  target : Option String
deriving DecidableEq

/-- `PathMappingImpl._validate_mapping`, with the exact error strings and
check order of the source. -/
def validateMapping (m : RawMapping) : Except String Unit :=
  match m.type with
  | none => .error "No type key in mapping."
  | some t =>
    if t ≠ "copy" ∧ t ≠ "link" then .error ("Invalid type in mapping: " ++ t)
    else match m.source with
    | none => .error "No source key in mapping."
    | some _ =>
      match m.target with
      | none => .error "No target key in mapping."
      | some tg =>
        if !(pyStartsWith tg "./") ∧ tg ≠ "." then
          .error "Target path must be relative to the output directory"
        else .ok ()

/-- A validated mapping: the three keys are known to be present. -/
structure PathMappingI where
  type : String
  source : String
  target : String
deriving DecidableEq

/-- `PathMappingImpl.__init__`: validate, then expose the three fields. -/
def mkPathMapping (m : RawMapping) : Except String PathMappingI :=
  match validateMapping m with
  | .error e => .error e
  | .ok _ => .ok ⟨m.type.getD "", m.source.getD "", m.target.getD ""⟩

/-- `PathMappingImpl.get_source`: substitute the default-storage placeholder,
then strip slashes at both ends. -/
def getSource (m : PathMappingI) (defaultStoragePath : String) : String :=
  ⟨stripSlashList (replaceDSP defaultStoragePath m.source.data)⟩

/-- `PathMappingImpl.get_target`: strip trailing slashes. -/
def getTarget (m : PathMappingI) : String :=
  ⟨rstripSlashList m.target.data⟩

/-- A raw `paths.yaml` document: an optional `override` flag and an optional
list of raw mapping dictionaries. -/
structure RawDoc where
  override : Option Bool
  paths : Option (List RawMapping)

/-- A parsed `PathsMapping`. -/
structure ParsedPaths where
  override : Bool
  mappings : List PathMappingI
deriving DecidableEq

/-- Validate the entries of the `paths` list left to right, aborting at the
first invalid one, as the list comprehension in `PathsMapping.__init__`
does. -/
def mapValidate : List RawMapping → Except String (List PathMappingI)
  | [] => .ok []
  | m :: rest =>
    match mkPathMapping m with
    | .error e => .error e
    | .ok pm =>
      match mapValidate rest with
      | .error e => .error e
      | .ok pms => .ok (pm :: pms)

/-- `PathsMapping.__init__`: read `override` with default `false`, require the
`paths` key, and validate every entry in order. -/
def parsePathsMapping (d : RawDoc) : Except String ParsedPaths :=
  match d.paths with
  | none => .error "No paths key in mapping."
  | some ps =>
    match mapValidate ps with
    | .error e => .error e
    | .ok ms => .ok ⟨d.override.getD false, ms⟩

/-- The implicit default rule `{copy, $default_storage_path, "."}` that
`get_paths_to_copy` prepends when `override` is unset. -/
def defaultCopyMapping : PathMappingI :=
  ⟨"copy", "$default_storage_path", "."⟩

/-- `PathsMapping.get_paths_to_copy`. -/
def getPathsToCopy (pm : ParsedPaths) : List PathMappingI :=
  let r := pm.mappings.filter (fun m => m.type == "copy")
  if !pm.override then defaultCopyMapping :: r else r

/-- `PathsMapping.get_paths_to_link`. -/
def getPathsToLink (pm : ParsedPaths) : List PathMappingI :=
  pm.mappings.filter (fun m => m.type == "link")

/-! ### Provisioner script generation (contentproviders/rdm/provisioner.py) -/

/-- The single-quote character, kept out of string literals. -/
def squote : Char := Char.ofNat 39

/-- A character `shlex.quote` considers safe: ASCII alphanumerics and the
punctuation characters underscore, at, percent, plus, equals, colon, comma,
dot, slash and hyphen. -/
def shlexSafeChar (c : Char) : Bool :=
  ('a' ≤ c && c ≤ 'z') || ('A' ≤ c && c ≤ 'Z') || ('0' ≤ c && c ≤ '9') ||
  c == '_' || c == '@' || c == '%' || c == '+' || c == '=' || c == ':' ||
  c == ',' || c == '.' || c == '/' || c == '-'

/-- `shlex.quote`: the empty string becomes a pair of single quotes, a string
of safe characters is returned unchanged, and anything else is wrapped in
single quotes with each embedded single quote escaped. -/
def shlexQuote (s : String) : String :=
  if s = "" then ⟨[squote, squote]⟩
  else if s.data.all shlexSafeChar then s
  else
    ⟨[squote] ++
      s.data.flatMap (fun c =>
        if c == squote then [squote, '"', squote, '"', squote] else [c]) ++
      [squote]⟩

/-- `os.path.join` for two components (POSIX): an absolute second component
wins; otherwise a separator is inserted unless the first component is empty or
already ends with one. -/
def osJoin (a b : String) : String :=
  if pyStartsWith b "/" then b
  else if a = "" ∨ pyEndsWith a "/" then a ++ b
  else a ++ "/" ++ b

/-- `os.path.dirname` (POSIX): everything up to the last slash, with trailing
slashes then removed unless the head consists only of slashes. -/
def osDirname (s : String) : String :=
  let head := (s.data.reverse.dropWhile (fun c => !(c == '/'))).reverse
  if head ≠ [] ∧ head.any (fun c => !(c == '/')) then ⟨rstripSlashList head⟩
  else ⟨head⟩

/-- The remote node a mapping source resolved to; only its `path` attribute is
consulted by script generation (a trailing slash marks a folder). -/
structure ResolvedSource where
  path : String
deriving DecidableEq

/-- The script lines written for one copy mapping: the body of the first loop
of `Provisioner.save_provision_script`. -/
def emitCopy (dsp mnt : String) (m : PathMappingI) (src : ResolvedSource) :
    List String :=
  let sourcePath := osJoin mnt (getSource m dsp)
  let targetPath := getTarget m
  let mkdirLines :=
    if targetPath ≠ "./" ∧ pyEndsWith targetPath "/" then
      if pyStripSlash targetPath ≠ "." ∧ pyStripSlash targetPath ≠ "" then
        ["mkdir -p " ++ shlexQuote targetPath ++ "\n"]
      else []
    else if targetPath ≠ "./" ∧ containsSlash targetPath then
      let parentDir := osDirname targetPath
      if pyStripSlash parentDir ≠ "." ∧ pyStripSlash parentDir ≠ "" then
        ["mkdir -p " ++ shlexQuote parentDir ++ "\n"]
      else []
    else []
  let cpLines :=
    if pyEndsWith src.path "/" then
      let targetPath2 :=
        if targetPath ≠ "." ∧ !(pyEndsWith targetPath "/") then targetPath ++ "/"
        else targetPath
      let sourcePath2 :=
        if !(pyEndsWith sourcePath "/") then sourcePath ++ "/" else sourcePath
      (if pyStripSlash targetPath2 ≠ "." ∧ pyStripSlash targetPath2 ≠ "" then
        ["mkdir -p " ++ shlexQuote targetPath2 ++ "\n"]
      else []) ++
      ["cp -fr " ++ shlexQuote sourcePath2 ++ "* " ++ shlexQuote targetPath2 ++ "\n"]
    else
      ["cp " ++ shlexQuote sourcePath ++ " " ++ shlexQuote targetPath ++ "\n"]
  mkdirLines ++ cpLines

/-- The script lines written for one link mapping: the body of the second loop
of `Provisioner.save_provision_script`. -/
def emitLink (dsp mnt : String) (m : PathMappingI) (_src : ResolvedSource) :
    List String :=
  let sourcePath := osJoin mnt (getSource m dsp)
  let targetPath := getTarget m
  let mkdirLines :=
    if targetPath ≠ "./" ∧ containsSlash (pyStripSlash targetPath) then
      let parentDir := osDirname targetPath
      if pyStripSlash parentDir ≠ "." ∧ pyStripSlash parentDir ≠ "" then
        ["mkdir -p " ++ shlexQuote parentDir ++ "\n"]
      else []
    else []
  mkdirLines ++ ["ln -s " ++ shlexQuote sourcePath ++ " " ++ shlexQuote targetPath ++ "\n"]

/-- The two header lines of every provisioning script. -/
def scriptHeader : List String :=
  ["#!/bin/bash\n", "set -xe\n"]

/-- `Provisioner.save_provision_script`: the sequence of lines written to the
script file, given the accumulated copy and link mappings with their resolved
sources, the default storage path and the source mount directory. -/
def saveProvisionScript (copies links : List (PathMappingI × ResolvedSource))
    (dsp mnt : String) : List String :=
  scriptHeader ++
  copies.flatMap (fun p => emitCopy dsp mnt p.1 p.2) ++
  links.flatMap (fun p => emitLink dsp mnt p.1 p.2)

/-- Lexicographic comparison of character lists by code point, the order
Python's `sorted` uses on strings. -/
def charListLe : List Char → List Char → Bool
  | [], _ => true
  | _ :: _, [] => false
  | a :: as, b :: bs =>
    if a.toNat < b.toNat then true
    else if b.toNat < a.toNat then false
    else charListLe as bs

/-- Python string comparison `a <= b`. -/
def strLe (a b : String) : Bool := charListLe a.data b.data

/-- The relation `sorted` orders strings by. -/
def strLeRel (a b : String) : Prop := strLe a b = true

instance : DecidableRel strLeRel := fun a b =>
  inferInstanceAs (Decidable (strLe a b = true))

/-- Python `sorted` on a list of strings. -/
def pySorted (l : List String) : List String :=
  List.insertionSort strLeRel l

/-! ### SHA-256 (the `hashlib.sha256` digest used by hash.py) -/

/-- Truncate to a 32-bit word. -/
def w32 (x : Nat) : Nat := x % 4294967296

/-- Rotate a 32-bit word right by `n`. -/
def rotr32 (n x : Nat) : Nat := w32 ((x >>> n) ||| (x <<< (32 - n)))

/-- SHA-256 big sigma 0. -/
def bsig0 (x : Nat) : Nat := rotr32 2 x ^^^ rotr32 13 x ^^^ rotr32 22 x

/-- SHA-256 big sigma 1. -/
def bsig1 (x : Nat) : Nat := rotr32 6 x ^^^ rotr32 11 x ^^^ rotr32 25 x

/-- SHA-256 small sigma 0. -/
def ssig0 (x : Nat) : Nat := rotr32 7 x ^^^ rotr32 18 x ^^^ (x >>> 3)

/-- SHA-256 small sigma 1. -/
def ssig1 (x : Nat) : Nat := rotr32 17 x ^^^ rotr32 19 x ^^^ (x >>> 10)

/-- SHA-256 choice function. -/
def sha2ch (x y z : Nat) : Nat := (x &&& y) ^^^ ((x ^^^ 4294967295) &&& z)

/-- SHA-256 majority function. -/
def sha2maj (x y z : Nat) : Nat := (x &&& y) ^^^ (x &&& z) ^^^ (y &&& z)

/-- The 64 SHA-256 round constants. -/
def sha256K : List Nat :=
  [1116352408, 1899447441, 3049323471, 3921009573, 961987163,
   1508970993, 2453635748, 2870763221, 3624381080, 310598401,
   607225278, 1426881987, 1925078388, 2162078206, 2614888103,
   3248222580, 3835390401, 4022224774, 264347078, 604807628,
   770255983, 1249150122, 1555081692, 1996064986, 2554220882,
   2821834349, 2952996808, 3210313671, 3336571891, 3584528711,
   113926993, 338241895, 666307205, 773529912, 1294757372,
   1396182291, 1695183700, 1986661051, 2177026350, 2456956037,
   2730485921, 2820302411, 3259730800, 3345764771, 3516065817,
   3600352804, 4094571909, 275423344, 430227734, 506948616,
   659060556, 883997877, 958139571, 1322822218, 1537002063,
   1747873779, 1955562222, 2024104815, 2227730452, 2361852424,
   2428436474, 2756734187, 3204031479, 3329325298]

/-- The 8-word working state of SHA-256. -/
structure Hash8 where
  a : Nat
  b : Nat
  c : Nat
  d : Nat
  e : Nat
  f : Nat
  g : Nat
  h : Nat
deriving DecidableEq

/-- The SHA-256 initial hash value. -/
def sha256Init : Hash8 :=
  ⟨1779033703, 3144134277, 1013904242, 2773480762,
   1359893119, 2600822924, 528734635, 1541459225⟩

/-- Big-endian byte serialization of a value into `n` bytes. -/
def bytesBE (n v : Nat) : List Nat :=
  (List.range n).map (fun i => (v >>> (8 * (n - 1 - i))) % 256)

/-- SHA-256 message padding: a `0x80` byte, zeros to 56 mod 64, then the bit
length in 8 big-endian bytes. -/
def sha256Pad (msg : List Nat) : List Nat :=
  let z := (119 - msg.length % 64) % 64
  msg ++ [0x80] ++ List.replicate z 0 ++ bytesBE 8 (8 * msg.length)

/-- Split a list into chunks of `n` elements, with an explicit fuel argument
standing for the number of read iterations. -/
def chunksOfAux (n : Nat) : Nat → List α → List (List α)
  | _, [] => []
  | 0, l => [l]
  | fuel + 1, l => l.take n :: chunksOfAux n fuel (l.drop n)

/-- Split a list into chunks of `n` elements, as the fixed-size read loop of
the hasher produces them. -/
def chunksOf (n : Nat) (l : List α) : List (List α) :=
  chunksOfAux n l.length l

/-- The 16 big-endian 32-bit words of one 64-byte block. -/
def wordsOfBlock (b : List Nat) : List Nat :=
  (List.range 16).map (fun i =>
    b.getD (4 * i) 0 * 16777216 + b.getD (4 * i + 1) 0 * 65536 +
    b.getD (4 * i + 2) 0 * 256 + b.getD (4 * i + 3) 0)

/-- Extend the message schedule by `k` further words; the accumulator holds
the schedule so far, most recent word first. -/
def schedAux : Nat → List Nat → List Nat
  | 0, acc => acc
  | k + 1, acc =>
    let w := w32 (ssig1 (acc.getD 1 0) + acc.getD 6 0 + ssig0 (acc.getD 14 0) + acc.getD 15 0)
    schedAux k (w :: acc)

/-- The full 64-word SHA-256 message schedule of one block. -/
def sha256Schedule (b : List Nat) : List Nat :=
  (schedAux 48 (wordsOfBlock b).reverse).reverse

/-- The SHA-256 round function iterated over pairs of a round constant and a
schedule word. -/
def sha256Rounds (st : Hash8) : List (Nat × Nat) → Hash8
  | [] => st
  | (k, w) :: rest =>
    let t1 := w32 (st.h + bsig1 st.e + sha2ch st.e st.f st.g + k + w)
    let t2 := w32 (bsig0 st.a + sha2maj st.a st.b st.c)
    sha256Rounds ⟨w32 (t1 + t2), st.a, st.b, st.c, w32 (st.d + t1), st.e, st.f, st.g⟩ rest

/-- SHA-256 compression of one 64-byte block into the running state. -/
def sha256Compress (st : Hash8) (block : List Nat) : Hash8 :=
  let st2 := sha256Rounds st (sha256K.zip (sha256Schedule block))
  ⟨w32 (st.a + st2.a), w32 (st.b + st2.b), w32 (st.c + st2.c), w32 (st.d + st2.d),
   w32 (st.e + st2.e), w32 (st.f + st2.f), w32 (st.g + st2.g), w32 (st.h + st2.h)⟩

/-- The eight 32-bit words of the SHA-256 digest of a byte sequence. -/
def sha256Words (msg : List Nat) : List Nat :=
  let st := (chunksOf 64 (sha256Pad msg)).foldl sha256Compress sha256Init
  [st.a, st.b, st.c, st.d, st.e, st.f, st.g, st.h]

/-- A lowercase hexadecimal digit. -/
def hexDigit (n : Nat) : Char :=
  if n < 10 then Char.ofNat (48 + n) else Char.ofNat (87 + n)

/-- The 8 lowercase hex characters of a 32-bit word. -/
def hex8 (v : Nat) : List Char :=
  (List.range 8).map (fun i => hexDigit ((v >>> (4 * (7 - i))) % 16))

/-- `hashlib.sha256(msg).hexdigest()`. -/
def sha256Hex (msg : List Nat) : String :=
  ⟨(sha256Words msg).flatMap hex8⟩

/-! ### Directory hashing (contentproviders/rdm/hash.py) -/

/-- UTF-8 encoding of one character. -/
def utf8Char (c : Char) : List Nat :=
  let n := c.toNat
  if n < 128 then [n]
  else if n < 2048 then [192 ||| (n >>> 6), 128 ||| (n &&& 63)]
  else if n < 65536 then
    [224 ||| (n >>> 12), 128 ||| ((n >>> 6) &&& 63), 128 ||| (n &&& 63)]
  else
    [240 ||| (n >>> 18), 128 ||| ((n >>> 12) &&& 63),
     128 ||| ((n >>> 6) &&& 63), 128 ||| (n &&& 63)]

/-- Python `s.encode("utf-8")`. -/
def strBytes (s : String) : List Nat :=
  s.data.flatMap utf8Char

/-- One walk entry: a relative path together with `none` for a subdirectory or
`some bytes` for a regular file's contents. -/
abbrev WalkEntry := String × Option (List Nat)

/-- The walk entry recorded for a relative path, mirroring the filesystem
lookups (`os.path.isfile` and `open`) the hasher performs. -/
def lookupEntry (p : String) (walk : List WalkEntry) : Option (Option (List Nat)) :=
  (walk.find? (fun e => e.1 == p)).map Prod.snd

/-- `compute_directory_hash`: the directory is given as the list of relative
paths in filesystem walk order, each marked as subdirectory or file with
contents. All collected paths are sorted; a `PATH:` record is fed to SHA-256
for each sorted path, then for each sorted path that is a regular file a
`CONTENT:` record followed by the file's bytes in chunks of 8192. -/
def compute_directory_hash (walk : List WalkEntry) : String :=
  let all_paths := walk.map Prod.fst
  let sortedPaths := pySorted all_paths
  let pathBytes := sortedPaths.flatMap (fun p => strBytes ("PATH:" ++ p ++ "\n"))
  let contentBytes := sortedPaths.flatMap (fun p =>
    match lookupEntry p walk with
    | some (some data) =>
      strBytes ("CONTENT:" ++ p ++ "\n") ++ (chunksOf 8192 data).flatMap id
    | _ => [])
  sha256Hex (pathBytes ++ contentBytes)

/-! ### Fetch orchestrator (contentproviders/rdm/__init__.py) -/

/-- One configured RDM host: hostname prefixes and an API base URL. -/
structure RDMHost where
  hostname : List String
  api : String
deriving DecidableEq

/-- The identity dictionary returned by `RDM.detect`. -/
structure RDMIdentity where
  project_id : String
  path : String
  host : RDMHost
  uuid : String
deriving DecidableEq

/-- `RDM._check_ref_defined`: a ref is defined unless it is absent or the
symbolic `HEAD` marker. -/
def check_ref_defined (ref : Option String) : Bool :=
  match ref with
  | none => false
  | some r => !(r == "HEAD")

/-- `RDM.content_id`: the project id and the uuid joined by a hyphen. -/
def content_id (project_id uuid : String) : String :=
  project_id ++ "-" ++ uuid

/-- The outcome of `RDM.detect`: the identity (or `none` when no host
matches) together with whether the hash-computation branch ran. -/
structure DetectOutcome where
  result : Option RDMIdentity
  hashTriggered : Bool
deriving DecidableEq

/-- `RDM.detect`: scan the hosts for one whose hostname prefix matches the
source URL; with a defined ref the uuid is the ref itself and no hash runs;
otherwise the asynchronous hash computation runs, yielding either the digest
of the configuration folder (`hashResult = some digest`) or, when no such
folder exists (`hashResult = none`), a freshly generated uuid1 value
(`freshUuid`). -/
def detect (hosts : List RDMHost) (source : String) (ref : Option String)
    (hashResult : Option String) (freshUuid : String) : DetectOutcome :=
  match hosts with
  | [] => ⟨none, false⟩
  | host :: rest =>
    if host.hostname.any (fun s => pyStartsWith source s) then
      let pid := rdmProjectId source
      let path := rdmProjectPath source
      if check_ref_defined ref then
        ⟨some ⟨pid, path, host, ref.getD ""⟩, false⟩
      else
        match hashResult with
        | none => ⟨some ⟨pid, path, host, freshUuid⟩, true⟩
        | some digest => ⟨some ⟨pid, path, host, digest⟩, true⟩
    else detect rest source ref hashResult freshUuid

/-- A remote file: its name, its remote `path` attribute (used in progress
messages) and its contents. -/
structure RFile where
  name : String
  rpath : String
  content : List Nat
deriving DecidableEq

/-- A remote folder: a name, immediate files and immediate subfolders. -/
inductive RFolder where
  | node (name : String) (files : List RFile) (folders : List RFolder)

/-- The local output directory: an association of relative paths already
present to their bytes, in creation order. -/
abbrev LocalFS := List (String × List Nat)

/-- `os.path.exists` on the model filesystem. -/
def fsExists (p : String) (fs : LocalFS) : Bool :=
  fs.any (fun e => e.1 == p)

/-- Writing a new file into the model filesystem. -/
def fsWrite (p : String) (c : List Nat) (fs : LocalFS) : LocalFS :=
  fs ++ [(p, c)]

/-- Reading a file from the model filesystem. -/
def fsLookup (p : String) (fs : LocalFS) : Option (List Nat) :=
  (fs.find? (fun e => e.1 == p)).map Prod.snd

/-- An entry name containing a forward or backward path separator. -/
def hasSep (s : String) : Bool :=
  s.data.any (fun c => c == '/' || c == '\\')

/-- `os.path.join(local_dir, name)` with an optional directory, as
`_fetch_all` computes local paths. -/
def joinLocal (localDir : Option String) (name : String) : String :=
  match localDir with
  | none => name
  | some d => osJoin d name

/-- The progress line for a skipped file. -/
def skipLine (outputDir : String) (f : RFile) (lpath : String) : String :=
  "Skip: " ++ f.rpath ++ " (" ++ lpath ++ " to " ++ outputDir ++ ")\n"

/-- The progress line for a downloaded file. -/
def fetchLine (outputDir : String) (f : RFile) (lpath : String) : String :=
  "Fetch: " ++ f.rpath ++ " (" ++ lpath ++ " to " ++ outputDir ++ ")\n"

/-- The file loop of `RDM._fetch_all`: reject separator-bearing names, skip
files whose local path already exists, download the rest, emitting one
progress line per file. -/
def fetchFiles (outputDir : String) (localDir : Option String) (fs : LocalFS) :
    List RFile → Except String (LocalFS × List String)
  | [] => .ok (fs, [])
  | f :: rest =>
    if hasSep f.name then
      .error ("File.name cannot include path separators: " ++ f.name)
    else
      let lpath := joinLocal localDir f.name
      if fsExists lpath fs then
        match fetchFiles outputDir localDir fs rest with
        | .error e => .error e
        | .ok (fs2, lines) => .ok (fs2, skipLine outputDir f lpath :: lines)
      else
        match fetchFiles outputDir localDir (fsWrite lpath f.content fs) rest with
        | .error e => .error e
        | .ok (fs2, lines) => .ok (fs2, fetchLine outputDir f lpath :: lines)

mutual

/-- `RDM._fetch_all` on a storage or folder with the given immediate files
and subfolders: process the files, then recurse into each subfolder. -/
def fetchAll (outputDir : String) (localDir : Option String) (fs : LocalFS)
    (files : List RFile) (folders : List RFolder) :
    Except String (LocalFS × List String) :=
  match fetchFiles outputDir localDir fs files with
  | .error e => .error e
  | .ok (fs1, lines1) =>
    match fetchFolders outputDir localDir fs1 folders with
    | .error e => .error e
    | .ok (fs2, lines2) => .ok (fs2, lines1 ++ lines2)
termination_by sizeOf files + sizeOf folders + 1

/-- The folder loop of `RDM._fetch_all`: reject separator-bearing folder
names and recurse with the folder name appended to the local directory. -/
def fetchFolders (outputDir : String) (localDir : Option String) (fs : LocalFS)
    (folders : List RFolder) : Except String (LocalFS × List String) :=
  match folders with
  | [] => .ok (fs, [])
  | .node name fls subs :: rest =>
    if hasSep name then
      .error ("Folder.name cannot include path separators: " ++ name)
    else
      match fetchAll outputDir (some (joinLocal localDir name)) fs fls subs with
      | .error e => .error e
      | .ok (fs1, lines1) =>
        match fetchFolders outputDir localDir fs1 rest with
        | .error e => .error e
        | .ok (fs2, lines2) => .ok (fs2, lines1 ++ lines2)
termination_by sizeOf folders

end

mutual

/-- The remote files reachable from the given immediate files and folders,
paired with the local path `_fetch_all` computes for each, in traversal
order. -/
def flatAll (localDir : Option String) (files : List RFile)
    (folders : List RFolder) : List (RFile × String) :=
  files.map (fun f => (f, joinLocal localDir f.name)) ++ flatFolders localDir folders
termination_by sizeOf files + sizeOf folders + 1

/-- The remote files reachable from the given folders, with local paths. -/
def flatFolders (localDir : Option String) (folders : List RFolder) :
    List (RFile × String) :=
  match folders with
  | [] => []
  | .node name fls subs :: rest =>
    flatAll (some (joinLocal localDir name)) fls subs ++ flatFolders localDir rest
termination_by sizeOf folders

end

/-- Every file name in the list is free of path separators. -/
def filesOk (files : List RFile) : Bool :=
  files.all (fun f => !(hasSep f.name))

/-- Every folder and file name in the trees is free of path separators. -/
def foldersOk (folders : List RFolder) : Bool :=
  match folders with
  | [] => true
  | .node name fls subs :: rest =>
    !(hasSep name) && filesOk fls && foldersOk subs && foldersOk rest
termination_by sizeOf folders

/-- The progress line `_fetch_all` emits for one remote file, judged against
a filesystem state. -/
def decideLine (outputDir : String) (fs : LocalFS) (e : RFile × String) : String :=
  if fsExists e.2 fs then skipLine outputDir e.1 e.2 else fetchLine outputDir e.1 e.2

/-- The files `_fetch_all` downloads: those whose local path is not yet
present. -/
def newWrites (fs : LocalFS) (flat : List (RFile × String)) : LocalFS :=
  (flat.filter (fun e => !(fsExists e.2 fs))).map (fun e => (e.2, e.1.content))

/-- The local paths of a list of flattened remote files. -/
def flatPaths (l : List (RFile × String)) : List String :=
  l.map Prod.snd

/-! ### Spec-side definitions, used to compare the code with the
specification's wording -/

/-- Modelled from the spec: a mapping entry the specification declares valid,
namely one whose kind is `copy` or `link`, whose source and target are
present, and whose target is `.` or starts with `./`. -/
def validSpecMapping (m : RawMapping) : Prop :=
  (m.type = some "copy" ∨ m.type = some "link") ∧
  (∃ s, m.source = some s) ∧
  (∃ t, m.target = some t ∧ (t = "." ∨ pyStartsWith t "./" = true))

/-- Modelled from the spec: the project path as claim C6 words it, namely the
marker-stripped remainder additionally trimmed of leading and trailing
slashes. -/
def claimProjectPath (url : String) : String :=
  pyStripSlash (projectPathOfPath (urlparsePath url))

/-- Modelled from the spec: the byte stream claim C9 describes, one `PATH:`
record per sorted relative path followed by, for each regular file in the
same order, a `CONTENT:` record and the file's bytes. -/
def specStream (walk : List WalkEntry) : List Nat :=
  let sorted := pySorted (walk.map Prod.fst)
  sorted.flatMap (fun p => strBytes ("PATH:" ++ p ++ "\n")) ++
  sorted.flatMap (fun p =>
    match lookupEntry p walk with
    | some (some data) => strBytes ("CONTENT:" ++ p ++ "\n") ++ data
    | _ => [])

/-! ## Helper lemmas -/

theorem string_append_left_cancel {p u₁ u₂ : String} (h : p ++ u₁ = p ++ u₂) : u₁ = u₂ := by
  apply String.ext
  have h2 := congrArg String.data h
  rw [String.data_append, String.data_append] at h2
  exact List.append_cancel_left h2

theorem string_append_right_cancel {p₁ p₂ u : String} (h : p₁ ++ u = p₂ ++ u) : p₁ = p₂ := by
  apply String.ext
  have h2 := congrArg String.data h
  rw [String.data_append, String.data_append] at h2
  exact List.append_cancel_right h2

theorem mkPathMapping_ok_iff (m : RawMapping) :
    (∃ pm, mkPathMapping m = .ok pm) ↔ validSpecMapping m := by
  rcases m with ⟨ty, src, tg⟩
  unfold mkPathMapping validateMapping validSpecMapping
  rcases ty with _ | t
  · simp
  rcases src with _ | s <;> rcases tg with _ | u <;>
    by_cases hcl : t ≠ "copy" ∧ t ≠ "link" <;> simp [hcl] <;> try tauto
  all_goals by_cases htg : pyStartsWith u "./" = false ∧ ¬u = "." <;>
    simp [htg] <;> (try tauto) <;>
    cases hps : pyStartsWith u "./" <;> simp_all <;> tauto

theorem mapValidate_ok_iff (ps : List RawMapping) :
    (∃ ms, mapValidate ps = .ok ms) ↔ ∀ m ∈ ps, validSpecMapping m := by
  induction ps with
  | nil => simp [mapValidate]
  | cons m rest ih =>
    constructor
    · rintro ⟨ms, hms⟩ x hx
      simp only [mapValidate] at hms
      cases hmk : mkPathMapping m with
      | error e => rw [hmk] at hms; cases hms
      | ok pm =>
        rw [hmk] at hms
        cases hmv : mapValidate rest with
        | error e => rw [hmv] at hms; cases hms
        | ok pms =>
          rcases List.mem_cons.mp hx with h | h
          · exact h ▸ (mkPathMapping_ok_iff m).mp ⟨pm, hmk⟩
          · exact (ih.mp ⟨pms, hmv⟩) x h
    · intro h
      obtain ⟨pm, hpm⟩ := (mkPathMapping_ok_iff m).mpr (h m (List.mem_cons_self m rest))
      obtain ⟨pms, hpms⟩ := ih.mpr (fun x hx => h x (List.mem_cons_of_mem m hx))
      exact ⟨pm :: pms, by simp [mapValidate, hpm, hpms]⟩

theorem mapValidate_length (ps : List RawMapping) (ms : List PathMappingI)
    (h : mapValidate ps = .ok ms) : ms.length = ps.length := by
  induction ps generalizing ms with
  | nil => simp [mapValidate] at h; simp [← h]
  | cons m rest ih =>
    simp only [mapValidate] at h
    cases hmk : mkPathMapping m with
    | error e => rw [hmk] at h; cases h
    | ok pm =>
      rw [hmk] at h
      cases hmv : mapValidate rest with
      | error e => rw [hmv] at h; cases h
      | ok pms =>
        rw [hmv] at h
        cases h
        simp [ih pms hmv]

/-! ## Claim theorems -/

/-- C1 (amended): `content_id()` is the string `project_id + "-" + uuid`. It
does not depend on the identity's `path`. Among identities sharing a
`project_id`, distinct uuids give distinct content ids, and among identities
sharing a uuid, distinct project ids give distinct content ids. -/
theorem C1_content_id_amended :
    (∀ i₁ i₂ : RDMIdentity, i₁.project_id = i₂.project_id → i₁.uuid = i₂.uuid →
      content_id i₁.project_id i₁.uuid = content_id i₂.project_id i₂.uuid) ∧
    (∀ p u₁ u₂ : String, u₁ ≠ u₂ → content_id p u₁ ≠ content_id p u₂) ∧
    (∀ p₁ p₂ u : String, p₁ ≠ p₂ → content_id p₁ u ≠ content_id p₂ u) := by
  refine ⟨fun i₁ i₂ hp hu => by rw [hp, hu], fun p u₁ u₂ hne h => hne ?_,
    fun p₁ p₂ u hne h => hne ?_⟩
  · exact string_append_left_cancel (p := p ++ "-") h
  · unfold content_id at h
    rw [String.append_assoc, String.append_assoc] at h
    exact string_append_right_cancel h

theorem C1_content_id_amended_witness :
    content_id "p" "X1234" ≠ content_id "p" "A5678" :=
  C1_content_id_amended.2.1 "p" "X1234" "A5678" (by decide)

/-- C1 is false as stated: two identities produced by `detect` that differ
only in `path` receive the same content id, so `content_id` is not injective
over the triple `{project_id, path, uuid}`; moreover the hyphen join is
ambiguous when the ids themselves contain hyphens. -/
theorem C1_counterexample :
    ((detect [⟨["https://h/"], "https://api/"⟩] "https://h/abc" (some "r1") none "f").result.map
        (fun i => content_id i.project_id i.uuid) =
      (detect [⟨["https://h/"], "https://api/"⟩] "https://h/abc/data" (some "r1") none "f").result.map
        (fun i => content_id i.project_id i.uuid)) ∧
    ((detect [⟨["https://h/"], "https://api/"⟩] "https://h/abc" (some "r1") none "f").result.map
        (fun i => i.path) ≠
      (detect [⟨["https://h/"], "https://api/"⟩] "https://h/abc/data" (some "r1") none "f").result.map
        (fun i => i.path)) ∧
    content_id "a-b" "c" = content_id "a" "b-c" :=
  ⟨by decide, by decide, by decide⟩

/-- C4: constructing a `PathsMapping` succeeds exactly when the `paths` list
is present and every entry has a `copy`/`link` type, a source, and a target
that is `.` or starts with `./`; a target `/etc` is rejected with the
relative-target error, a type `move` with the invalid-type error, a missing
`paths` key with the missing-key error, and a conforming document parses. -/
theorem C4_paths_mapping_validation :
    (∀ d : RawDoc, (∃ pm, parsePathsMapping d = .ok pm) ↔
        (∃ l, d.paths = some l ∧ ∀ m ∈ l, validSpecMapping m)) ∧
    (parsePathsMapping ⟨none, some [⟨some "copy", some "s", some "/etc"⟩]⟩ =
        .error "Target path must be relative to the output directory") ∧
    (parsePathsMapping ⟨none, some [⟨some "move", some "s", some "./x"⟩]⟩ =
        .error "Invalid type in mapping: move") ∧
    (parsePathsMapping ⟨none, none⟩ = .error "No paths key in mapping.") ∧
    (parsePathsMapping ⟨some true, some [⟨some "link", some "s", some "./x"⟩,
        ⟨some "copy", some "c", some "."⟩]⟩ =
      .ok ⟨true, [⟨"link", "s", "./x"⟩, ⟨"copy", "c", "."⟩]⟩) := by
  refine ⟨fun d => ?_, rfl, rfl, rfl, rfl⟩
  rcases d with ⟨ov, _ | l⟩
  · simp [parsePathsMapping]
  · simp only [parsePathsMapping, Option.some.injEq]
    cases hmv : mapValidate l with
    | error e =>
      simp only [hmv]
      constructor
      · rintro ⟨pm, hpm⟩; cases hpm
      · intro h
        rcases h with ⟨l', hl', hval⟩
        cases hl'
        obtain ⟨ms, hms⟩ := (mapValidate_ok_iff l).mpr hval
        rw [hms] at hmv
        cases hmv
    | ok pms =>
      simp only [hmv]
      constructor
      · intro _
        exact ⟨l, rfl, (mapValidate_ok_iff l).mp ⟨pms, hmv⟩⟩
      · intro _
        exact ⟨⟨ov.getD false, pms⟩, rfl⟩

/-- C5: for every parsed `PathsMapping`, `get_paths_to_copy` returns the
implicit default rule followed by the declared copy rules when `override` is
false and exactly the declared copy rules when it is true, while
`get_paths_to_link` always returns exactly the declared link rules; parsing
keeps one parsed mapping per declared entry. -/
theorem C5_copy_link_rules (d : RawDoc) (l : List RawMapping) (pm : ParsedPaths)
    (hp : d.paths = some l) (hok : parsePathsMapping d = .ok pm) :
    (pm.override = false →
      getPathsToCopy pm = defaultCopyMapping :: pm.mappings.filter (fun m => m.type == "copy")) ∧
    (pm.override = true →
      getPathsToCopy pm = pm.mappings.filter (fun m => m.type == "copy")) ∧
    getPathsToLink pm = pm.mappings.filter (fun m => m.type == "link") ∧
    pm.override = d.override.getD false ∧
    pm.mappings.length = l.length := by
  simp only [parsePathsMapping, hp] at hok
  cases hmv : mapValidate l with
  | error e => rw [hmv] at hok; cases hok
  | ok ms =>
    rw [hmv] at hok
    cases hok
    refine ⟨fun h => ?_, fun h => ?_, rfl, rfl, mapValidate_length l ms hmv⟩
    · have h' : d.override.getD false = false := h
      simp [getPathsToCopy, h']
    · have h' : d.override.getD false = true := h
      simp [getPathsToCopy, h']

theorem C5_copy_link_rules_witness :
    getPathsToCopy ⟨false, [⟨"copy", "data", "./dataset"⟩]⟩ =
      [defaultCopyMapping, ⟨"copy", "data", "./dataset"⟩] ∧
    getPathsToLink ⟨false, [⟨"copy", "data", "./dataset"⟩]⟩ = [] ∧
    (getPathsToCopy ⟨false, [⟨"copy", "data", "./dataset"⟩]⟩).length = 2 := by
  have h := C5_copy_link_rules ⟨none, some [⟨some "copy", some "data", some "./dataset"⟩]⟩
    [⟨some "copy", some "data", some "./dataset"⟩] ⟨false, [⟨"copy", "data", "./dataset"⟩]⟩ rfl rfl
  refine ⟨by simpa using h.1 rfl, by simpa using h.2.2.1, by simp [h.1 rfl]⟩

/-- C7: with a defined ref (present and not `HEAD`) `detect` puts the ref
verbatim into the identity's uuid and never enters the hash-computation
branch; with no ref and no configuration folder the hash branch runs and the
uuid is the freshly generated value, so two calls generating different fresh
values return different uuids. -/
theorem C7_detect_ref_and_fresh (host : RDMHost) (rest : List RDMHost)
    (source r fresh fresh' : String) (hashRes : Option String)
    (hmatch : host.hostname.any (fun s => pyStartsWith source s) = true)
    (hr : r ≠ "HEAD") :
    (detect (host :: rest) source (some r) hashRes fresh).result =
      some ⟨rdmProjectId source, rdmProjectPath source, host, r⟩ ∧
    (detect (host :: rest) source (some r) hashRes fresh).hashTriggered = false ∧
    (detect (host :: rest) source none none fresh).result =
      some ⟨rdmProjectId source, rdmProjectPath source, host, fresh⟩ ∧
    (detect (host :: rest) source none none fresh).hashTriggered = true ∧
    (fresh ≠ fresh' →
      (detect (host :: rest) source none none fresh).result.map RDMIdentity.uuid ≠
      (detect (host :: rest) source none none fresh').result.map RDMIdentity.uuid) := by
  have hcrd : check_ref_defined (some r) = true := by
    simp [check_ref_defined]
    exact hr
  refine ⟨?_, ?_, ?_, ?_, fun hne h => ?_⟩
  · simp [detect, hmatch, hcrd]
  · simp [detect, hmatch, hcrd]
  · simp [detect, hmatch, check_ref_defined]
  · simp [detect, hmatch, check_ref_defined]
  · simp [detect, hmatch, check_ref_defined] at h
    exact hne h

theorem dropWhile_head_not {α : Type} (p : α → Bool) (l : List α) (a : α)
    (h : (l.dropWhile p).head? = some a) : p a = false := by
  induction l with
  | nil => cases h
  | cons x xs ih =>
    rw [List.dropWhile_cons] at h
    split at h
    · exact ih h
    · cases h
      simp_all

theorem rstrip_ends (l : List Char) :
    pyEndsWith ⟨rstripSlashList l⟩ "/" = false := by
  unfold pyEndsWith rstripSlashList
  show (("/" : String).data.isSuffixOf _) = false
  unfold List.isSuffixOf
  have hd : (("/" : String).data).reverse = ['/'] := rfl
  rw [hd]
  rw [List.reverse_reverse]
  cases hh : (List.dropWhile (fun c => c == '/') l.reverse).head? with
  | none =>
    have hnil : List.dropWhile (fun c => c == '/') l.reverse = [] := by
      cases hc : List.dropWhile (fun c => c == '/') l.reverse
      · rfl
      · rw [hc] at hh; cases hh
    rw [hnil]
    rfl
  | some a =>
    have hpa := dropWhile_head_not (fun c => c == '/') l.reverse a hh
    cases hc : List.dropWhile (fun c => c == '/') l.reverse with
    | nil => rfl
    | cons y ys =>
      rw [hc] at hh
      cases hh
      show (('/' == a) && _) = false
      have ha : (a == '/') = false := hpa
      have hne : a ≠ '/' := by simpa using ha
      have ha2 : ('/' == a) = false := by simpa using hne.symm
      simp [ha2]

theorem rstrip_target_shape (u : String) (h : u = "." ∨ pyStartsWith u "./" = true) :
    (⟨rstripSlashList u.data⟩ : String) = "." ∨
      pyStartsWith ⟨rstripSlashList u.data⟩ "./" = true := by
  rcases h with h | h
  · subst h
    left
    decide
  · have hpre : ("./" : String).data <+: u.data :=
      List.isPrefixOf_iff_prefix.mp h
    obtain ⟨t, ht⟩ := hpre
    have hu : u.data = '.' :: '/' :: t := by
      rw [← ht]; rfl
    have hsub : List.dropWhile (fun c => c == '/') u.data.reverse <:+ u.data.reverse :=
      List.dropWhile_suffix _
    have hpre2 : rstripSlashList u.data <+: u.data := by
      unfold rstripSlashList
      have hp2 := List.reverse_prefix.mpr hsub
      rwa [List.reverse_reverse] at hp2
    have hne : rstripSlashList u.data ≠ [] := by
      intro hnil
      unfold rstripSlashList at hnil
      have hdrop : List.dropWhile (fun c => c == '/') u.data.reverse = [] := by
        have hrev := congrArg List.reverse hnil
        rwa [List.reverse_reverse] at hrev
      rw [List.dropWhile_eq_nil_iff] at hdrop
      have hdot : '.' ∈ u.data.reverse := by
        rw [hu]; simp
      have hcontra := hdrop '.' hdot
      simp at hcontra
    obtain ⟨t2, ht2⟩ := hpre2
    cases hr : rstripSlashList u.data with
    | nil => exact absurd hr hne
    | cons c1 r1 =>
      rw [hr, hu] at ht2
      cases r1 with
      | nil =>
        cases ht2
        left
        decide
      | cons c2 r2 =>
        cases ht2
        right
        show (("./" : String).data).isPrefixOf ('.' :: '/' :: r2) = true
        simp [List.isPrefixOf]

theorem mkPathMapping_fields (m : RawMapping) (pm : PathMappingI)
    (h : mkPathMapping m = .ok pm) :
    m.target = some pm.target ∧ (pm.target = "." ∨ pyStartsWith pm.target "./" = true) := by
  have hv := (mkPathMapping_ok_iff m).mp ⟨pm, h⟩
  obtain ⟨t, ht, hprop⟩ := hv.2.2
  unfold mkPathMapping at h
  cases hval : validateMapping m with
  | error e => rw [hval] at h; cases h
  | ok _ =>
    rw [hval] at h
    cases h
    refine ⟨?_, ?_⟩
    · show m.target = some (m.target.getD "")
      rw [ht]
      rfl
    · show m.target.getD "" = "." ∨ pyStartsWith (m.target.getD "") "./" = true
      rw [ht]
      simpa using hprop

/-- C10: for every mapping accepted by the validating constructor,
`get_target` returns `.` or a string starting with `./` and never ending in
`/`, so the copy branch guarded by a trailing slash on the target is never
taken, and a declared target `./dataset/` behaves identically to
`./dataset`. -/
theorem C10_target_normalization (m : RawMapping) (pm : PathMappingI)
    (h : mkPathMapping m = .ok pm) :
    (getTarget pm = "." ∨ pyStartsWith (getTarget pm) "./" = true) ∧
    pyEndsWith (getTarget pm) "/" = false ∧
    ¬(getTarget pm ≠ "./" ∧ pyEndsWith (getTarget pm) "/" = true) ∧
    getTarget ⟨"copy", "s", "./dataset/"⟩ = getTarget ⟨"copy", "s", "./dataset"⟩ ∧
    (∀ (m₁ m₂ : PathMappingI) (dsp mnt : String) (src : ResolvedSource),
      m₁.source = m₂.source → getTarget m₁ = getTarget m₂ →
      emitCopy dsp mnt m₁ src = emitCopy dsp mnt m₂ src) := by
  obtain ⟨-, hshape⟩ := mkPathMapping_fields m pm h
  have h1 : getTarget pm = "." ∨ pyStartsWith (getTarget pm) "./" = true :=
    rstrip_target_shape pm.target hshape
  have h2 : pyEndsWith (getTarget pm) "/" = false := rstrip_ends pm.target.data
  refine ⟨h1, h2, ?_, by decide, ?_⟩
  · rintro ⟨-, hc⟩
    rw [h2] at hc
    cases hc
  · intro m₁ m₂ dsp mnt src hs ht
    unfold emitCopy
    have hgs : getSource m₁ dsp = getSource m₂ dsp := by
      unfold getSource
      rw [hs]
    rw [hgs, ht]

theorem C10_target_normalization_witness :
    (getTarget ⟨"copy", "s", "./dataset/"⟩ = "." ∨
      pyStartsWith (getTarget ⟨"copy", "s", "./dataset/"⟩) "./" = true) ∧
    pyEndsWith (getTarget ⟨"copy", "s", "./dataset/"⟩) "/" = false :=
  ⟨(C10_target_normalization ⟨some "copy", some "s", some "./dataset/"⟩
      ⟨"copy", "s", "./dataset/"⟩ rfl).1,
   (C10_target_normalization ⟨some "copy", some "s", some "./dataset/"⟩
      ⟨"copy", "s", "./dataset/"⟩ rfl).2.1⟩

/-- C2: for the copy mapping `$default_storage_path/data -> ./dataset` whose
source resolved to a folder (remote path ending in a slash), with default
storage `osfstorage` and mount root `/mnt/rdm/`, the generated script is the
header followed by a `mkdir -p ./dataset/` line and then the line copying
everything under `/mnt/rdm/osfstorage/data/` into `./dataset/`; in general
the script emits all copy commands before all link commands. -/
theorem C2_provision_script (sp : String) (hsp : pyEndsWith sp "/" = true) :
    saveProvisionScript [(⟨"copy", "$default_storage_path/data", "./dataset"⟩, ⟨sp⟩)] []
        "osfstorage" "/mnt/rdm/" =
      ["#!/bin/bash\n", "set -xe\n", "mkdir -p ./dataset/\n",
       "cp -fr /mnt/rdm/osfstorage/data/* ./dataset/\n"] ∧
    (∀ (copies links : List (PathMappingI × ResolvedSource)) (dsp mnt : String),
      saveProvisionScript copies links dsp mnt =
        scriptHeader ++ copies.flatMap (fun p => emitCopy dsp mnt p.1 p.2) ++
        links.flatMap (fun p => emitLink dsp mnt p.1 p.2)) := by
  constructor
  · simp only [saveProvisionScript, List.flatMap_cons, List.flatMap_nil, List.append_nil,
      emitCopy, hsp]
    decide
  · intro copies links dsp mnt
    rfl

theorem C2_provision_script_witness :
    pyEndsWith "/data/" "/" = true ∧
    saveProvisionScript [(⟨"copy", "$default_storage_path/data", "./dataset"⟩, ⟨"/data/"⟩)] []
        "osfstorage" "/mnt/rdm/" =
      ["#!/bin/bash\n", "set -xe\n", "mkdir -p ./dataset/\n",
       "cp -fr /mnt/rdm/osfstorage/data/* ./dataset/\n"] :=
  ⟨by decide, (C2_provision_script "/data/" (by decide)).1⟩

/-- C6 is false as stated: the parser does not trim trailing slashes from the
remainder, so `.../abc123/data/` yields the path `data/` where the claim
predicts `data`. -/
theorem C6_counterexample :
    rdmProjectPath "https://host/abc123/data/" ≠ claimProjectPath "https://host/abc123/data/" ∧
    rdmProjectPath "https://host/abc123/data/" = "data/" ∧
    claimProjectPath "https://host/abc123/data/" = "data" :=
  ⟨by decide, by decide, by decide⟩

/-- C6 (amended): the project id is the first segment of the URL path after
stripping leading slashes, and the path is the remainder with the markers
`files/` then `dir/` stripped in order, without further slash trimming of the
remainder; a single-segment URL path yields the whole segment as project id
and an empty path. The three example URLs parse as claimed. -/
theorem C6_url_parsing :
    rdmProjectId "https://host/abc123" = "abc123" ∧
    rdmProjectPath "https://host/abc123" = "" ∧
    rdmProjectPath "https://host/abc123/files/dir/data/x.csv" = "data/x.csv" ∧
    rdmProjectPath "https://host/abc123/files/doc.pdf" = "doc.pdf" ∧
    (∀ path : String,
      (path.data.dropWhile (fun c => c == '/')).any (fun c => c == '/') = false →
      projectPathOfPath path = "" ∧
      projectIdOfPath path = ⟨path.data.dropWhile (fun c => c == '/')⟩) ∧
    (∀ path : String, projectIdOfPath path =
      ⟨(path.data.dropWhile (fun c => c == '/')).takeWhile (fun c => !(c == '/'))⟩) := by
  refine ⟨by decide, by decide, by decide, by decide, fun path h => ⟨?_, ?_⟩, fun path => rfl⟩
  · unfold projectPathOfPath
    simp [h]
  · unfold projectIdOfPath
    congr 1
    rw [List.takeWhile_eq_self_iff]
    intro c hc
    simp only [List.any_eq_false] at h
    simpa using h c hc

theorem C6_url_parsing_witness :
    projectPathOfPath "abc123" = "" ∧
    projectIdOfPath "abc123" = ⟨"abc123".data.dropWhile (fun c => c == '/')⟩ :=
  C6_url_parsing.2.2.2.2.1 "abc123" (by decide)

theorem C7_detect_ref_and_fresh_witness :
    (detect [⟨["https://h/"], "api"⟩] "https://h/abc" (some "X1234") none "f1").hashTriggered =
      false ∧
    (detect [⟨["https://h/"], "api"⟩] "https://h/abc" none none "f1").result.map
        RDMIdentity.uuid ≠
      (detect [⟨["https://h/"], "api"⟩] "https://h/abc" none none "f2").result.map
        RDMIdentity.uuid :=
  ⟨(C7_detect_ref_and_fresh ⟨["https://h/"], "api"⟩ [] "https://h/abc" "X1234" "f1" "f2" none
      (by decide) (by decide)).2.1,
   (C7_detect_ref_and_fresh ⟨["https://h/"], "api"⟩ [] "https://h/abc" "X1234" "f1" "f2" none
      (by decide) (by decide)).2.2.2.2 (by decide)⟩

theorem charListLe_total : ∀ a b : List Char, charListLe a b = true ∨ charListLe b a = true := by
  intro a
  induction a with
  | nil => intro b; left; simp [charListLe]
  | cons x xs ih =>
    intro b
    cases b with
    | nil => right; simp [charListLe]
    | cons y ys =>
      simp only [charListLe]
      rcases Nat.lt_trichotomy x.toNat y.toNat with h | h | h
      · left; simp [h]
      · have h1 : ¬ x.toNat < y.toNat := by omega
        have h2 : ¬ y.toNat < x.toNat := by omega
        simp [h1, h2]
        exact ih ys
      · right; simp [h]

theorem charListLe_trans :
    ∀ a b c : List Char, charListLe a b = true → charListLe b c = true →
      charListLe a c = true := by
  intro a
  induction a with
  | nil => intro b c _ _; simp [charListLe]
  | cons x xs ih =>
    intro b c hab hbc
    cases b with
    | nil => simp [charListLe] at hab
    | cons y ys =>
      cases c with
      | nil => simp [charListLe] at hbc
      | cons z zs =>
        simp only [charListLe] at hab hbc ⊢
        rcases Nat.lt_trichotomy x.toNat y.toNat with hxy | hxy | hxy
        · rcases Nat.lt_trichotomy y.toNat z.toNat with hyz | hyz | hyz
          · simp [show x.toNat < z.toNat by omega]
          · simp [show x.toNat < z.toNat by omega]
          · simp [show ¬ y.toNat < z.toNat by omega, hyz] at hbc
        · simp [show ¬ x.toNat < y.toNat by omega,
            show ¬ y.toNat < x.toNat by omega] at hab
          rcases Nat.lt_trichotomy y.toNat z.toNat with hyz | hyz | hyz
          · simp [show x.toNat < z.toNat by omega]
          · simp [show ¬ y.toNat < z.toNat by omega,
              show ¬ z.toNat < y.toNat by omega] at hbc
            simp [show ¬ x.toNat < z.toNat by omega,
              show ¬ z.toNat < x.toNat by omega]
            exact ih ys zs hab hbc
          · simp [show ¬ y.toNat < z.toNat by omega, hyz] at hbc
        · simp [show ¬ x.toNat < y.toNat by omega, hxy] at hab

theorem charListLe_antisymm :
    ∀ a b : List Char, charListLe a b = true → charListLe b a = true → a = b := by
  intro a
  induction a with
  | nil =>
    intro b _ hba
    cases b with
    | nil => rfl
    | cons y ys => simp [charListLe] at hba
  | cons x xs ih =>
    intro b hab hba
    cases b with
    | nil => simp [charListLe] at hab
    | cons y ys =>
      simp only [charListLe] at hab hba
      by_cases h1 : x.toNat < y.toNat <;> by_cases h2 : y.toNat < x.toNat <;>
        simp [h1, h2] at hab hba
      · omega
      · have hn : x.toNat = y.toNat := by omega
        have hx : x = y := Char.ext (UInt32.ext hn)
        rw [hx, ih ys hab hba]



theorem flatMap_congr {α β : Type} (l : List α) (f g : α → List β)
    (h : ∀ a ∈ l, f a = g a) : l.flatMap f = l.flatMap g := by
  induction l with
  | nil => rfl
  | cons x xs ih =>
    simp only [List.flatMap_cons]
    rw [h x (List.mem_cons_self x xs), ih (fun a ha => h a (List.mem_cons_of_mem x ha))]

theorem lookupEntry_perm {w1 w2 : List WalkEntry} (h : w1.Perm w2) :
    (w1.map Prod.fst).Nodup → ∀ p, lookupEntry p w1 = lookupEntry p w2 := by
  induction h with
  | nil => intro _ p; rfl
  | cons x hperm ih =>
    intro hnd p
    rw [List.map_cons] at hnd
    have hndt := (List.nodup_cons.mp hnd).2
    unfold lookupEntry
    rw [List.find?_cons, List.find?_cons]
    split
    · rfl
    · exact ih hndt p
  | swap x y l =>
    intro hnd p
    rw [List.map_cons, List.map_cons] at hnd
    have hyx : y.1 ≠ x.1 := by
      have hm := (List.nodup_cons.mp hnd).1
      intro he
      exact hm (by simp [he])
    unfold lookupEntry
    rw [List.find?_cons, List.find?_cons, List.find?_cons, List.find?_cons]
    by_cases h1 : (y.1 == p) <;> by_cases h2 : (x.1 == p) <;> simp [h1, h2]
    exact absurd ((eq_of_beq h1).trans (eq_of_beq h2).symm) hyx
  | trans h1 h2 ih1 ih2 =>
    intro hnd p
    exact (ih1 hnd p).trans (ih2 ((h1.map Prod.fst).nodup_iff.mp hnd) p)

/-- C3: directories with identical sets of relative paths and per-file
contents hash identically, independent of the filesystem enumeration order
(the model contains no timestamps or permissions, which the hasher never
reads). -/
theorem C3_hash_order_independent (w1 w2 : List WalkEntry)
    (hperm : w1.Perm w2) (hnd : (w1.map Prod.fst).Nodup) :
    compute_directory_hash w1 = compute_directory_hash w2 := by
  haveI i1 : IsTotal String strLeRel := ⟨fun a b => charListLe_total a.data b.data⟩
  haveI i2 : IsTrans String strLeRel :=
    ⟨fun a b c hab hbc => charListLe_trans a.data b.data c.data hab hbc⟩
  haveI i3 : IsAntisymm String strLeRel :=
    ⟨fun a b hab hba => String.ext (charListLe_antisymm a.data b.data hab hba)⟩
  have hsort : pySorted (w1.map Prod.fst) = pySorted (w2.map Prod.fst) := by
    apply List.eq_of_perm_of_sorted (r := strLeRel)
    · exact (List.perm_insertionSort _ _).trans
        ((hperm.map _).trans (List.perm_insertionSort _ _).symm)
    · exact List.sorted_insertionSort _ _
    · exact List.sorted_insertionSort _ _
  simp only [compute_directory_hash]
  rw [hsort]
  congr 1
  congr 1
  apply flatMap_congr
  intro p _
  rw [lookupEntry_perm hperm hnd p]

theorem C3_hash_order_independent_witness :
    compute_directory_hash [("a", some [49]), ("b", none)] =
      compute_directory_hash [("b", none), ("a", some [49])] :=
  C3_hash_order_independent [("a", some [49]), ("b", none)] [("b", none), ("a", some [49])]
    (List.Perm.swap _ _ _) (by decide)

theorem chunksOfAux_flatten {α : Type} (n : Nat) :
    ∀ (fuel : Nat) (l : List α), (chunksOfAux n fuel l).flatMap id = l := by
  intro fuel
  induction fuel with
  | zero =>
    intro l
    cases l with
    | nil => rfl
    | cons x xs => simp [chunksOfAux]
  | succ fuel ih =>
    intro l
    cases l with
    | nil => rfl
    | cons x xs =>
      simp only [chunksOfAux, List.flatMap_cons, id]
      rw [ih]
      exact List.take_append_drop n (x :: xs)

theorem chunksOf_flatten {α : Type} (n : Nat) (l : List α) :
    (chunksOf n l).flatMap id = l :=
  chunksOfAux_flatten n l.length l

theorem sha256Hex_length (msg : List Nat) : (sha256Hex msg).length = 64 := by
  unfold sha256Hex sha256Words String.length
  simp [hex8]

/-- C9: `compute_directory_hash` is the SHA-256 hex digest (64 characters) of
the stream made of one `PATH:` record per sorted relative path followed by,
for each regular file in the same order, a `CONTENT:` record and the file's
bytes (the chunked read concatenates back to the plain bytes); hashing the
same directory twice gives the same digest, and at the example directories
adding an empty subdirectory or changing one byte of one file changes the
digest. -/
theorem C9_hash_stream :
    (∀ walk : List WalkEntry, compute_directory_hash walk = sha256Hex (specStream walk)) ∧
    (∀ walk : List WalkEntry, (compute_directory_hash walk).length = 64) ∧
    (∀ walk : List WalkEntry, compute_directory_hash walk = compute_directory_hash walk) ∧
    compute_directory_hash [("a", some [49])] ≠
      compute_directory_hash [("a", some [49]), ("b", none)] ∧
    compute_directory_hash [("a", some [49])] ≠
      compute_directory_hash [("a", some [50])] := by
  refine ⟨fun walk => ?_, fun walk => ?_, fun walk => rfl, by decide, by decide⟩
  · simp only [compute_directory_hash, specStream]
    congr 2
    apply flatMap_congr
    intro p _
    cases lookupEntry p walk with
    | none => rfl
    | some o =>
      cases o with
      | none => rfl
      | some data =>
        simp only []
        rw [chunksOf_flatten]
  · simp only [compute_directory_hash]
    exact sha256Hex_length _

theorem fsExists_append (p : String) (fs1 fs2 : LocalFS) :
    fsExists p (fs1 ++ fs2) = (fsExists p fs1 || fsExists p fs2) := by
  unfold fsExists
  exact List.any_append

theorem fsExists_iff (p : String) (fs : LocalFS) :
    fsExists p fs = true ↔ p ∈ fs.map Prod.fst := by
  unfold fsExists
  simp [List.any_eq_true, beq_iff_eq]

theorem fsExists_eq_false_iff (p : String) (fs : LocalFS) :
    fsExists p fs = false ↔ p ∉ fs.map Prod.fst := by
  rw [← fsExists_iff]
  cases h : fsExists p fs <;> simp [h]

theorem exists_shift (p : String) (fs ws : LocalFS)
    (hp : ∀ q ∈ ws.map Prod.fst, q ≠ p) :
    fsExists p (fs ++ ws) = fsExists p fs := by
  rw [fsExists_append]
  have hw : fsExists p ws = false := by
    rw [fsExists_eq_false_iff]
    intro hmem
    exact hp p hmem rfl
  simp [hw]

theorem newWrites_keys_sub (fs : LocalFS) (flat : List (RFile × String)) :
    ∀ q ∈ (newWrites fs flat).map Prod.fst, q ∈ flatPaths flat := by
  intro q hq
  simp only [newWrites, flatPaths, List.map_map, List.mem_map] at hq ⊢
  obtain ⟨e, he, heq⟩ := hq
  exact ⟨e, List.mem_of_mem_filter he, heq⟩

theorem newWrites_append (fs : LocalFS) (A B : List (RFile × String)) :
    newWrites fs (A ++ B) = newWrites fs A ++ newWrites fs B := by
  simp [newWrites, List.filter_append]

theorem newWrites_congr (fs1 fs2 : LocalFS) (flat : List (RFile × String))
    (h : ∀ e ∈ flat, fsExists e.2 fs1 = fsExists e.2 fs2) :
    newWrites fs1 flat = newWrites fs2 flat := by
  unfold newWrites
  rw [List.filter_congr (fun e he => by rw [h e he])]

theorem decideLine_congr (outputDir : String) (fs1 fs2 : LocalFS)
    (flat : List (RFile × String))
    (h : ∀ e ∈ flat, fsExists e.2 fs1 = fsExists e.2 fs2) :
    flat.map (decideLine outputDir fs1) = flat.map (decideLine outputDir fs2) := by
  apply List.map_congr_left
  intro e he
  unfold decideLine
  rw [h e he]

theorem fetchFiles_char (outputDir : String) (localDir : Option String) :
    ∀ (files : List RFile) (fs : LocalFS),
      filesOk files = true →
      (flatPaths (files.map (fun f => (f, joinLocal localDir f.name)))).Nodup →
      fetchFiles outputDir localDir fs files =
        .ok (fs ++ newWrites fs (files.map (fun f => (f, joinLocal localDir f.name))),
             (files.map (fun f => (f, joinLocal localDir f.name))).map
               (decideLine outputDir fs)) := by
  intro files
  induction files with
  | nil => intro fs _ _; simp [fetchFiles, newWrites, flatPaths]
  | cons f rest ih =>
    intro fs hok hnd
    rw [filesOk, List.all_cons, Bool.and_eq_true] at hok
    have hsep : hasSep f.name = false := by
      cases h : hasSep f.name
      · rfl
      · rw [h] at hok; cases hok.1
    have hokr : filesOk rest = true := hok.2
    simp only [List.map_cons, flatPaths, List.map_cons] at hnd
    rw [List.nodup_cons] at hnd
    obtain ⟨hnotin, hndr⟩ := hnd
    simp only [fetchFiles, hsep, Bool.false_eq_true, if_false]
    cases hex : fsExists (joinLocal localDir f.name) fs with
    | true =>
      rw [ih fs hokr hndr]
      simp only [List.map_cons, newWrites, List.filter_cons]
      rw [hex]
      simp only [Bool.not_true, Bool.false_eq_true, if_false]
      simp [decideLine, hex, newWrites]
    | false =>
      rw [ih (fsWrite (joinLocal localDir f.name) f.content fs) hokr hndr]
      have hshift : ∀ e ∈ rest.map (fun f => (f, joinLocal localDir f.name)),
          fsExists e.2 (fsWrite (joinLocal localDir f.name) f.content fs) = fsExists e.2 fs := by
        intro e he
        unfold fsWrite
        apply exists_shift
        intro q hq he2
        simp only [fsWrite] at hq
        simp at hq
        apply hnotin
        have hmem : e.2 ∈ List.map Prod.snd
            (List.map (fun f => (f, joinLocal localDir f.name)) rest) :=
          List.mem_map_of_mem Prod.snd he
        rw [hq] at he2
        exact he2 ▸ hmem
      rw [newWrites_congr _ _ _ hshift, decideLine_congr _ _ _ _ hshift]
      simp only [List.map_cons, newWrites, List.filter_cons]
      rw [hex]
      simp only [Bool.not_false, if_true]
      simp only [decideLine, hex, Bool.false_eq_true, if_false]
      unfold fsWrite
      rw [List.append_assoc]
      rfl



theorem fetchFolders_nil (od : String) (ld : Option String) (fs : LocalFS) :
    fetchFolders od ld fs [] = .ok (fs, []) := by
  conv_lhs => unfold fetchFolders

theorem flatFolders_nil (ld : Option String) : flatFolders ld [] = [] := by
  conv_lhs => unfold flatFolders

theorem flatFolders_cons (ld : Option String) (name : String) (fls : List RFile)
    (subs rest : List RFolder) :
    flatFolders ld (.node name fls subs :: rest) =
      flatAll (some (joinLocal ld name)) fls subs ++ flatFolders ld rest := by
  conv_lhs => unfold flatFolders

theorem flatAll_def (ld : Option String) (fls : List RFile) (subs : List RFolder) :
    flatAll ld fls subs =
      fls.map (fun f => (f, joinLocal ld f.name)) ++ flatFolders ld subs := by
  conv_lhs => unfold flatAll

theorem foldersOk_cons (name : String) (fls : List RFile) (subs rest : List RFolder) :
    foldersOk (.node name fls subs :: rest) =
      (!(hasSep name) && filesOk fls && foldersOk subs && foldersOk rest) := by
  conv_lhs => unfold foldersOk

theorem fetchAll_def (od : String) (ld : Option String) (fs : LocalFS) (files : List RFile)
    (folders : List RFolder) :
    fetchAll od ld fs files folders =
      match fetchFiles od ld fs files with
      | .error e => .error e
      | .ok (fs1, lines1) =>
        match fetchFolders od ld fs1 folders with
        | .error e => .error e
        | .ok (fs2, lines2) => .ok (fs2, lines1 ++ lines2) := by
  conv_lhs => unfold fetchAll

theorem fetchFolders_cons (od name : String) (ld : Option String) (fs : LocalFS)
    (fls : List RFile) (subs rest : List RFolder) (h : hasSep name = false) :
    fetchFolders od ld fs (.node name fls subs :: rest) =
      match fetchAll od (some (joinLocal ld name)) fs fls subs with
      | .error e => .error e
      | .ok (fs1, lines1) =>
        match fetchFolders od ld fs1 rest with
        | .error e => .error e
        | .ok (fs2, lines2) => .ok (fs2, lines1 ++ lines2) := by
  conv_lhs => unfold fetchFolders
  simp [h]



theorem flatPaths_append (A B : List (RFile × String)) :
    flatPaths (A ++ B) = flatPaths A ++ flatPaths B := by
  simp [flatPaths]

theorem mem_flatPaths {e : RFile × String} {l : List (RFile × String)} (h : e ∈ l) :
    e.2 ∈ flatPaths l :=
  List.mem_map_of_mem Prod.snd h

theorem listSizeOfPos {α : Type} [SizeOf α] (l : List α) : 0 < sizeOf l := by
  cases l <;> simp_arith

theorem fetchFolders_char (outputDir : String) :
    ∀ (n : Nat) (folders : List RFolder) (localDir : Option String) (fs : LocalFS),
      sizeOf folders ≤ n →
      foldersOk folders = true →
      (flatPaths (flatFolders localDir folders)).Nodup →
      fetchFolders outputDir localDir fs folders =
        .ok (fs ++ newWrites fs (flatFolders localDir folders),
             (flatFolders localDir folders).map (decideLine outputDir fs)) := by
  intro n
  induction n with
  | zero =>
    intro folders localDir fs hsz _ _
    exact absurd hsz (by have := listSizeOfPos folders; omega)
  | succ n ih =>
    have hAll : ∀ (localDir : Option String) (fs : LocalFS) (fls : List RFile)
        (subs : List RFolder),
        sizeOf subs ≤ n →
        filesOk fls = true → foldersOk subs = true →
        (flatPaths (flatAll localDir fls subs)).Nodup →
        fetchAll outputDir localDir fs fls subs =
          .ok (fs ++ newWrites fs (flatAll localDir fls subs),
               (flatAll localDir fls subs).map (decideLine outputDir fs)) := by
      intro localDir fs fls subs hsz hfok hsok hnd
      rw [flatAll_def] at hnd ⊢
      rw [flatPaths_append] at hnd
      obtain ⟨hnd1, hnd2, hdisj⟩ := List.nodup_append.mp hnd
      rw [fetchAll_def, fetchFiles_char outputDir localDir fls fs hfok hnd1]
      dsimp only
      rw [ih subs localDir _ hsz hsok hnd2]
      dsimp only
      have hshift : ∀ e ∈ flatFolders localDir subs,
          fsExists e.2
              (fs ++ newWrites fs (fls.map (fun f => (f, joinLocal localDir f.name)))) =
            fsExists e.2 fs := by
        intro e he
        apply exists_shift
        intro q hq hqe
        have hq2 := newWrites_keys_sub fs _ q hq
        rw [hqe] at hq2
        exact hdisj hq2 (mem_flatPaths he)
      rw [newWrites_congr _ _ _ hshift, decideLine_congr _ _ _ _ hshift]
      rw [newWrites_append, List.map_append, List.append_assoc]
    intro folders localDir fs hsz hok hnd
    cases folders with
    | nil =>
      rw [fetchFolders_nil, flatFolders_nil]
      simp [newWrites]
    | cons fol rest =>
      obtain ⟨name, fls, subs⟩ := fol
      rw [foldersOk_cons] at hok
      rw [Bool.and_eq_true, Bool.and_eq_true, Bool.and_eq_true] at hok
      obtain ⟨⟨⟨hname, hfls⟩, hsubs⟩, hrest⟩ := hok
      have hsep : hasSep name = false := by
        cases h : hasSep name
        · rfl
        · rw [h] at hname; cases hname
      rw [flatFolders_cons] at hnd ⊢
      rw [flatPaths_append] at hnd
      obtain ⟨hndA, hndB, hdisj⟩ := List.nodup_append.mp hnd
      have hszs : sizeOf subs ≤ n ∧ sizeOf rest ≤ n := by
        simp only [List.cons.sizeOf_spec, RFolder.node.sizeOf_spec] at hsz
        constructor <;> omega
      rw [fetchFolders_cons outputDir name localDir fs fls subs rest hsep]
      rw [hAll (some (joinLocal localDir name)) fs fls subs hszs.1 hfls hsubs hndA]
      dsimp only
      rw [ih rest localDir _ hszs.2 hrest hndB]
      dsimp only
      have hshift : ∀ e ∈ flatFolders localDir rest,
          fsExists e.2
              (fs ++ newWrites fs (flatAll (some (joinLocal localDir name)) fls subs)) =
            fsExists e.2 fs := by
        intro e he
        apply exists_shift
        intro q hq hqe
        have hq2 := newWrites_keys_sub fs _ q hq
        rw [hqe] at hq2
        exact hdisj hq2 (mem_flatPaths he)
      rw [newWrites_congr _ _ _ hshift, decideLine_congr _ _ _ _ hshift]
      rw [newWrites_append, List.map_append, List.append_assoc]



theorem fetchAll_char (outputDir : String) (localDir : Option String) (fs : LocalFS)
    (files : List RFile) (folders : List RFolder)
    (h1 : filesOk files = true) (h2 : foldersOk folders = true)
    (hnd : (flatPaths (flatAll localDir files folders)).Nodup) :
    fetchAll outputDir localDir fs files folders =
      .ok (fs ++ newWrites fs (flatAll localDir files folders),
           (flatAll localDir files folders).map (decideLine outputDir fs)) := by
  rw [flatAll_def] at hnd ⊢
  rw [flatPaths_append] at hnd
  obtain ⟨hnd1, hnd2, hdisj⟩ := List.nodup_append.mp hnd
  rw [fetchAll_def, fetchFiles_char outputDir localDir files fs h1 hnd1]
  dsimp only
  rw [fetchFolders_char outputDir (sizeOf folders) folders localDir _ le_rfl h2 hnd2]
  dsimp only
  have hshift : ∀ e ∈ flatFolders localDir folders,
      fsExists e.2
          (fs ++ newWrites fs (files.map (fun f => (f, joinLocal localDir f.name)))) =
        fsExists e.2 fs := by
    intro e he
    apply exists_shift
    intro q hq hqe
    have hq2 := newWrites_keys_sub fs _ q hq
    rw [hqe] at hq2
    exact hdisj hq2 (mem_flatPaths he)
  rw [newWrites_congr _ _ _ hshift, decideLine_congr _ _ _ _ hshift]
  rw [newWrites_append, List.map_append, List.append_assoc]

theorem fsLookup_append_of_exists (p : String) (fs ws : LocalFS)
    (h : fsExists p fs = true) :
    fsLookup p (fs ++ ws) = fsLookup p fs := by
  unfold fsLookup
  rw [List.find?_append]
  have hs : (fs.find? (fun e => e.1 == p)).isSome := by
    rw [List.find?_isSome]
    unfold fsExists at h
    simpa [List.any_eq_true] using h
  obtain ⟨v, hv⟩ := Option.isSome_iff_exists.mp hs
  rw [hv]
  rfl

theorem find_newWrites (p : String) (f : RFile) :
    ∀ (flat : List (RFile × String)) (fs : LocalFS),
      (f, p) ∈ flat → (flatPaths flat).Nodup → fsExists p fs = false →
      (newWrites fs flat).find? (fun e => e.1 == p) = some (p, f.content) := by
  intro flat
  induction flat with
  | nil => intro fs h _ _; cases h
  | cons e rest ih =>
    intro fs hmem hnd hex
    have hnd' : e.2 ∉ flatPaths rest ∧ (flatPaths rest).Nodup := by
      rw [flatPaths, List.map_cons, List.nodup_cons] at hnd
      exact hnd
    rcases List.mem_cons.mp hmem with he | he
    · rw [← he] at hnd' ⊢
      unfold newWrites
      rw [List.filter_cons]
      simp only [hex, Bool.not_false, if_true, List.map_cons, List.find?_cons]
      simp
    · have hne : e.2 ≠ p := by
        intro hc
        exact hnd'.1 (hc ▸ mem_flatPaths he)
      unfold newWrites
      rw [List.filter_cons]
      cases hc : !(fsExists e.2 fs) with
      | false =>
        simp only [Bool.false_eq_true, if_false]
        exact ih fs he hnd'.2 hex
      | true =>
        simp only [if_true, List.map_cons, List.find?_cons]
        have : (e.2 == p) = false := by simpa using hne
        rw [this]
        exact ih fs he hnd'.2 hex

theorem fsLookup_downloaded (p : String) (f : RFile) (flat : List (RFile × String))
    (fs : LocalFS) (hmem : (f, p) ∈ flat) (hnd : (flatPaths flat).Nodup)
    (hex : fsExists p fs = false) :
    fsLookup p (fs ++ newWrites fs flat) = some f.content := by
  unfold fsLookup
  rw [List.find?_append]
  have h1 : fs.find? (fun e => e.1 == p) = none := by
    rw [List.find?_eq_none]
    intro x hx hbe
    have hcontra : fsExists p fs = true := by
      unfold fsExists
      rw [List.any_eq_true]
      exact ⟨x, hx, hbe⟩
    rw [hcontra] at hex
    cases hex
  rw [h1, find_newWrites p f flat fs hmem hnd hex]
  rfl

theorem fsExists_result (p : String) (f : RFile) (flat : List (RFile × String))
    (fs : LocalFS) (hmem : (f, p) ∈ flat) :
    fsExists p (fs ++ newWrites fs flat) = true := by
  rw [fsExists_append]
  cases hex : fsExists p fs with
  | true => rfl
  | false =>
    have : fsExists p (newWrites fs flat) = true := by
      rw [fsExists_iff]
      unfold newWrites
      rw [List.map_map]
      rw [List.mem_map]
      exact ⟨(f, p), List.mem_filter.mpr ⟨hmem, by simp [hex]⟩, rfl⟩
    simp [this]

theorem count_key_once {l : List (RFile × String)} (hnd : (flatPaths l).Nodup)
    {e : RFile × String} (he : e ∈ l) :
    (l.filter (fun x => x.2 == e.2)).length = 1 := by
  induction l with
  | nil => cases he
  | cons a rest ih =>
    have hnd' : a.2 ∉ flatPaths rest ∧ (flatPaths rest).Nodup := by
      rw [flatPaths, List.map_cons, List.nodup_cons] at hnd
      exact hnd
    rcases List.mem_cons.mp he with h | h
    · subst h
      rw [List.filter_cons]
      have hself : (e.2 == e.2) = true := by simp
      rw [hself]
      simp only [if_true, List.length_cons]
      have hz : rest.filter (fun x => x.2 == e.2) = [] := by
        rw [List.filter_eq_nil_iff]
        intro x hx hbe
        exact hnd'.1 ((eq_of_beq hbe) ▸ mem_flatPaths hx)
      rw [hz]
      rfl
    · have hne : a.2 ≠ e.2 := by
        intro hc
        exact hnd'.1 (hc ▸ mem_flatPaths h)
      rw [List.filter_cons]
      have hbe : (a.2 == e.2) = false := by simpa using hne
      rw [hbe]
      simp only [Bool.false_eq_true, if_false]
      exact ih hnd'.2 h

theorem endsWith_close_newline (s : String) : pyEndsWith (s ++ ")\n") "\n" = true := by
  unfold pyEndsWith List.isSuffixOf
  rw [String.data_append]
  have hrev : (s.data ++ (")\n" : String).data).reverse = '\n' :: ')' :: s.data.reverse := by
    simp
  rw [hrev]
  simp [List.isPrefixOf]



theorem foldersOk_nil : foldersOk [] = true := by
  conv_lhs => unfold foldersOk

/-- C8: under separator-free names and distinct destination paths,
`_fetch_all` succeeds; it emits exactly the per-file decision lines in
traversal order, where a file whose destination exists gets the single
newline-terminated `Skip` line for its unique occurrence and is left
unchanged on disk, a file not yet present gets a `Fetch` line and its
contents written, every processed file exists afterwards (so a re-run skips
all of them), and the resulting filesystem is the old one plus exactly the
downloads. -/
theorem C8_fetch_skip_idempotent (outputDir : String) (localDir : Option String)
    (fs : LocalFS) (files : List RFile) (folders : List RFolder)
    (h1 : filesOk files = true) (h2 : foldersOk folders = true)
    (hnd : (flatPaths (flatAll localDir files folders)).Nodup) :
    fetchAll outputDir localDir fs files folders =
      .ok (fs ++ newWrites fs (flatAll localDir files folders),
           (flatAll localDir files folders).map (decideLine outputDir fs)) ∧
    (∀ e ∈ flatAll localDir files folders, fsExists e.2 fs = true →
      decideLine outputDir fs e = skipLine outputDir e.1 e.2 ∧
      fsLookup e.2 (fs ++ newWrites fs (flatAll localDir files folders)) = fsLookup e.2 fs ∧
      ((flatAll localDir files folders).filter (fun x => x.2 == e.2)).length = 1) ∧
    (∀ e ∈ flatAll localDir files folders, fsExists e.2 fs = false →
      decideLine outputDir fs e = fetchLine outputDir e.1 e.2 ∧
      fsLookup e.2 (fs ++ newWrites fs (flatAll localDir files folders)) = some e.1.content) ∧
    (∀ e ∈ flatAll localDir files folders,
      fsExists e.2 (fs ++ newWrites fs (flatAll localDir files folders)) = true) ∧
    (∀ f lp, pyEndsWith (skipLine outputDir f lp) "\n" = true) := by
  refine ⟨fetchAll_char outputDir localDir fs files folders h1 h2 hnd,
    fun e he hex => ⟨?_, ?_, count_key_once hnd he⟩,
    fun e he hex => ⟨?_, ?_⟩,
    fun e he => ?_, fun f lp => ?_⟩
  · unfold decideLine
    rw [hex]
    rfl
  · exact fsLookup_append_of_exists e.2 fs _ hex
  · unfold decideLine
    rw [hex]
    rfl
  · exact fsLookup_downloaded e.2 e.1 _ fs (by rw [Prod.mk.eta]; exact he) hnd hex
  · exact fsExists_result e.2 e.1 _ fs (by rw [Prod.mk.eta]; exact he)
  · unfold skipLine
    exact endsWith_close_newline _

theorem C8_fetch_skip_idempotent_witness :
    filesOk [⟨"a.txt", "/a.txt", [1]⟩] = true ∧
    foldersOk [RFolder.node "sub" [⟨"c.txt", "/sub/c.txt", [3]⟩] []] = true ∧
    (flatPaths (flatAll none [⟨"a.txt", "/a.txt", [1]⟩]
      [RFolder.node "sub" [⟨"c.txt", "/sub/c.txt", [3]⟩] []])).Nodup ∧
    fetchAll "out" none [("a.txt", [9])] [⟨"a.txt", "/a.txt", [1]⟩]
        [RFolder.node "sub" [⟨"c.txt", "/sub/c.txt", [3]⟩] []] =
      .ok ([("a.txt", [9])] ++
            newWrites [("a.txt", [9])] (flatAll none [⟨"a.txt", "/a.txt", [1]⟩]
              [RFolder.node "sub" [⟨"c.txt", "/sub/c.txt", [3]⟩] []]),
           (flatAll none [⟨"a.txt", "/a.txt", [1]⟩]
              [RFolder.node "sub" [⟨"c.txt", "/sub/c.txt", [3]⟩] []]).map
             (decideLine "out" [("a.txt", [9])])) := by
  have h1 : filesOk [(⟨"a.txt", "/a.txt", [1]⟩ : RFile)] = true := by decide
  have h2 : foldersOk [RFolder.node "sub" [⟨"c.txt", "/sub/c.txt", [3]⟩] []] = true := by
    rw [foldersOk_cons, foldersOk_nil]
    decide
  have hnd : (flatPaths (flatAll none [(⟨"a.txt", "/a.txt", [1]⟩ : RFile)]
      [RFolder.node "sub" [⟨"c.txt", "/sub/c.txt", [3]⟩] []])).Nodup := by
    rw [flatAll_def, flatFolders_cons, flatAll_def, flatFolders_nil, flatFolders_nil]
    decide
  exact ⟨h1, h2, hnd,
    (C8_fetch_skip_idempotent "out" none [("a.txt", [9])] [⟨"a.txt", "/a.txt", [1]⟩]
      [RFolder.node "sub" [⟨"c.txt", "/sub/c.txt", [3]⟩] []] h1 h2 hnd).1⟩

end RdmCore
